import Mathlib

/-!
Verification of the pepmatch-rs preprocessing pipeline (src/main.rs).

The development shallowly embeds the pure core of the program:

* `split_sequence` — the k-mer generator (main.rs, lines 70-78), modelled
  generically over element lists; `split_sequence_bytes` is the byte-accurate
  variant reflecting that Rust slices `&str` by bytes and panics when a slice
  boundary falls inside a multi-byte UTF-8 character.
* the seven header regexes of `get_data_from_proteome` (lines 16-24), each
  translated to an executable matcher with the leftmost-first
  and lazy-quantifier semantics.
* the per-record metadata extraction (lines 26-64), including the
  `parse::<usize>().unwrap()` calls, modelled as `Option`-valued to capture
  the panic on numeric overflow.
* the global k-mer index computation of `insert_kmers` (line 126) and the
  k-mer row stream produced by the loop in `main` (lines 194-197).
* the k-argument handling in `main` (lines 177-182).

Strings are `List Char`; `usize` is `Nat` bounded by `2 ^ 64 - 1` where the
Rust code can fail on overflow (string-to-integer parsing).
-/

/-- Model of the regex class `\s` (Unicode white space), by code point. -/
def isWsC (c : Char) : Bool :=
  c.toNat = 9 || c.toNat = 10 || c.toNat = 11 || c.toNat = 12 ||
  c.toNat = 13 || c.toNat = 32 || c.toNat = 133 || c.toNat = 160 ||
  c.toNat = 5760 || (8192 ≤ c.toNat && c.toNat ≤ 8202) || c.toNat = 8232 ||
  c.toNat = 8233 || c.toNat = 8239 || c.toNat = 8287 || c.toNat = 12288

/-- ASCII decimal digit: the digits accepted by Rust `usize` parsing
(`from_str`), which is ASCII-only. -/
def isDigitC (c : Char) : Bool :=
  48 ≤ c.toNat && c.toNat ≤ 57

/-- First code point of every run of the Unicode `Nd` (decimal number)
category, Unicode 15.0; each run is exactly ten consecutive code points
(the mathematical block U+1D7CE..U+1D7FF is five such runs). -/
def ndStarts : List Nat :=
  [0x30, 0x660, 0x6F0, 0x7C0, 0x966, 0x9E6, 0xA66, 0xAE6, 0xB66, 0xBE6,
   0xC66, 0xCE6, 0xD66, 0xDE6, 0xE50, 0xED0, 0xF20, 0x1040, 0x1090, 0x17E0,
   0x1810, 0x1946, 0x19D0, 0x1A80, 0x1A90, 0x1B50, 0x1BB0, 0x1C40, 0x1C50,
   0xA620, 0xA8D0, 0xA900, 0xA9D0, 0xA9F0, 0xAA50, 0xABF0, 0xFF10, 0x104A0,
   0x10D30, 0x11066, 0x110F0, 0x11136, 0x111D0, 0x112F0, 0x11450, 0x114D0,
   0x11650, 0x116C0, 0x11730, 0x118E0, 0x11950, 0x11C50, 0x11D50, 0x11DA0,
   0x11F50, 0x16A60, 0x16AC0, 0x16B50, 0x1D7CE, 0x1D7D8, 0x1D7E2, 0x1D7EC,
   0x1D7F6, 0x1E140, 0x1E2F0, 0x1E4F0, 0x1E950, 0x1FBF0]

/-- Model of the regex class `\d`: the regex crate is Unicode-aware by
default, so `\d` is `\p{Nd}` — any Unicode decimal digit, not only ASCII
`0-9`. -/
def isNdC (c : Char) : Bool :=
  ndStarts.any (fun s => s ≤ c.toNat && c.toNat ≤ s + 9)

/-- Regex `.`: any character other than a line feed. -/
def isDotC (c : Char) : Bool :=
  c.toNat ≠ 10

/-- Numeric value of a decimal digit string (most significant first). -/
def natOfDigits (l : List Char) : Nat :=
  l.foldl (fun acc c => acc * 10 + (c.toNat - 48)) 0

/-- Largest value of the 64-bit Rust `usize`. -/
def USIZE_MAX : Nat := 2 ^ 64 - 1

/-- Rust `str::parse::<usize>()`: optional leading plus sign, at least one
digit, and the value must fit in `usize`; anything else is an error. -/
def parseUsize (s : List Char) : Option Nat :=
  let t := match s with
    | '+' :: r => r
    | _ => s
  if t.isEmpty then none
  else if t.all isDigitC then
    if natOfDigits t ≤ USIZE_MAX then some (natOfDigits t) else none
  else none

/-- Rust `usize::to_string` on a single digit. -/
def digitChar (d : Nat) : Char := Char.ofNat (48 + d)

/-- Decimal digit expansion, driven by a fuel bound on the number of
digits (any fuel above `n` suffices, since `n / 10 < n` for `n ≥ 10`). -/
def natToStringGo : Nat → Nat → List Char
  | 0, _ => []
  | fuel + 1, n =>
    if n < 10 then [digitChar n]
    else natToStringGo fuel (n / 10) ++ [digitChar (n % 10)]

/-- Rust `usize::to_string`: decimal digits, most significant first. -/
def natToString (n : Nat) : List Char :=
  natToStringGo (n + 1) n

/-- The `while i + k <= seq.len()` loop of `split_sequence`
(main.rs, lines 72-76), started at offset `i`.  Each iteration records the
window `seq[i..i + k]` together with its start offset; the fuel is any
bound on the remaining iteration count (`seq.length + 1 - i` iterations
remain, since `i` grows by one per step and stops past `length - k`). -/
def splitGo {α : Type} : Nat → List α → Nat → Nat → List (List α × Nat)
  | 0, _, _, _ => []
  | fuel + 1, seq, k, i =>
    if i + k ≤ seq.length then
      ((seq.drop i).take k, i) :: splitGo fuel seq k (i + 1)
    else
      []

/-- Model of `split_sequence` (main.rs, lines 70-78): k-mers of `seq` with their
0-based start offsets, sliding the window by one position each step. -/
def split_sequence {α : Type} (seq : List α) (k : Nat) : List (List α × Nat) :=
  splitGo (seq.length + 1) seq k 0

/-- Closed form of the k-mer loop from an arbitrary start offset, for any
sufficient fuel. -/
theorem splitGo_eq {α : Type} (seq : List α) (k : Nat) :
    ∀ fuel i, seq.length + 1 - i ≤ fuel →
      splitGo fuel seq k i =
        (List.range (seq.length + 1 - (i + k))).map
          (fun j => ((seq.drop (i + j)).take k, i + j)) := by
  intro fuel
  induction fuel with
  | zero =>
    intro i hf
    have hz : seq.length + 1 - (i + k) = 0 := by omega
    rw [hz, splitGo]
    rfl
  | succ fuel ih =>
    intro i hf
    by_cases h : i + k ≤ seq.length
    · have hrec := ih (i + 1) (by omega)
      rw [splitGo]
      simp only [h, if_true]
      have hsz : seq.length + 1 - (i + k) = (seq.length + 1 - (i + 1 + k)) + 1 := by
        omega
      rw [hsz, List.range_succ_eq_map, List.map_cons, List.map_map, hrec]
      refine congrArg₂ _ (by simp) (List.map_congr_left ?_)
      intro j _
      simp only [Function.comp]
      have harith : i + 1 + j = i + (j + 1) := by omega
      rw [harith]
    · have hz : seq.length + 1 - (i + k) = 0 := by omega
      rw [splitGo]
      simp [h, hz]

/-- Closed form of `split_sequence`. -/
theorem split_sequence_eq {α : Type} (seq : List α) (k : Nat) :
    split_sequence seq k =
      (List.range (seq.length + 1 - k)).map
        (fun j => ((seq.drop j).take k, j)) := by
  rw [split_sequence, splitGo_eq seq k (seq.length + 1) 0 (by omega)]
  simp

/-- C1: For every sequence `s` and window size `k` with `1 ≤ k` and
`k ≤ length s`, `split_sequence s k` is exactly the list of pairs
`(s[i..i+k], i)` for `i = 0, …, length s − k`, in ascending offset order; in
particular it has `length s − k + 1` entries, its offsets are exactly
`0, …, length s − k`, and the substring paired with offset `i` is
`s[i..i+k]` (i.e. `(s.drop i).take k`). -/
theorem split_sequence_full_window (s : List Char) (k : Nat)
    (hk : 1 ≤ k) (hlen : k ≤ s.length) :
    split_sequence s k =
      (List.range (s.length - k + 1)).map (fun i => ((s.drop i).take k, i)) ∧
    (split_sequence s k).length = s.length - k + 1 ∧
    (split_sequence s k).map Prod.snd = List.range (s.length - k + 1) := by
  have heq : split_sequence s k =
      (List.range (s.length - k + 1)).map (fun i => ((s.drop i).take k, i)) := by
    rw [split_sequence_eq]
    have harith : s.length + 1 - k = s.length - k + 1 := by omega
    rw [harith]
  refine ⟨heq, ?_, ?_⟩
  · rw [heq]; simp
  · rw [heq, List.map_map]
    have : (Prod.snd ∘ fun i => ((s.drop i).take k, i)) = id := by
      funext j; rfl
    rw [this, List.map_id]

/-- Witness for C1: the sequence `"ABCD"` with `k = 2`. -/
theorem split_sequence_full_window_witness :
    split_sequence ("ABCD".toList) 2 =
      (List.range 3).map (fun i => (("ABCD".toList.drop i).take 2, i)) ∧
    (split_sequence ("ABCD".toList) 2).length = 3 ∧
    (split_sequence ("ABCD".toList) 2).map Prod.snd = List.range 3 := by
  have h := split_sequence_full_window ("ABCD".toList) 2 (by decide) (by decide)
  simpa using h

/-- C2: When the sequence is shorter than `k`, `split_sequence` returns
the empty list; the loop guard compares `i + k` with the length, so no
unsigned subtraction (and no underflow panic) ever occurs. -/
theorem split_sequence_short (s : List Char) (k : Nat) (h : s.length < k) :
    split_sequence s k = [] := by
  rw [split_sequence_eq]
  have hz : s.length + 1 - k = 0 := by omega
  rw [hz]
  rfl

/-- Witness for C2: a length-2 sequence with `k = 3` yields no k-mers. -/
theorem split_sequence_short_witness :
    split_sequence ("AB".toList) 3 = [] :=
  split_sequence_short ("AB".toList) 3 (by decide)

/-- The global index computed by `insert_kmers` (main.rs, line 126):
`(protein_count * 1000000) + kmer.1`. -/
def kmer_index (protein_count : Nat) (local_offset : Nat) : Nat :=
  protein_count * 1000000 + local_offset

/-- Modelled from the spec: the decoder of the round-trip law in spec section 4.3
(`decode` via integer division and modulo by 1,000,000); the repository
stores only encoded indices and has no decoder of its own. -/
def decode_index (n : Nat) : Nat × Nat :=
  (n / 1000000, n % 1000000)

/-- The rows that `insert_kmers` (main.rs, lines 116-136) writes into the
`kmers` table for one protein: each k-mer string paired with its encoded
global index. -/
def insert_kmers_rows (kmers : List (List Char × Nat)) (protein_count : Nat) :
    List (List Char × Nat) :=
  kmers.map (fun km => (km.1, kmer_index protein_count km.2))

/-- C3: For a protein ordinal `p ≥ 1` and a local offset `o < 1000000`,
the stored index is `p * 1000000 + o`, division and modulo by 1,000,000
recover `(p, o)`, and distinct in-bounds pairs give distinct indices. -/
theorem kmer_index_roundtrip (p o : Nat) (hp : 1 ≤ p) (ho : o < 1000000) :
    kmer_index p o = p * 1000000 + o ∧
    decode_index (kmer_index p o) = (p, o) ∧
    (∀ p2 o2, o2 < 1000000 → kmer_index p o = kmer_index p2 o2 →
      p = p2 ∧ o = o2) ∧
    (∀ kmers : List (List Char × Nat),
      insert_kmers_rows kmers p = kmers.map (fun km => (km.1, kmer_index p km.2))) := by
  refine ⟨rfl, ?_, ?_, fun kmers => rfl⟩
  · unfold decode_index kmer_index
    have h1 : (p * 1000000 + o) / 1000000 = p := by omega
    have h2 : (p * 1000000 + o) % 1000000 = o := by omega
    rw [h1, h2]
  · intro p2 o2 ho2 heq
    unfold kmer_index at heq
    constructor <;> omega

/-- Witness for C3: protein 3, offset 7. -/
theorem kmer_index_roundtrip_witness :
    kmer_index 3 7 = 3 * 1000000 + 7 ∧
    decode_index (kmer_index 3 7) = (3, 7) := by
  have h := kmer_index_roundtrip 3 7 (by decide) (by decide)
  exact ⟨h.1, h.2.1⟩

/-- C9: With `k = 0` the loop guard `i + 0 ≤ length s` holds for every
`i ≤ length s`, so `split_sequence s 0` returns `length s + 1` pairs, the
empty substring at every offset `0, …, length s`; and the command-line
parser accepts the string `"0"`, so this case is reachable. -/
theorem split_sequence_zero (s : List Char) :
    split_sequence s 0 =
      (List.range (s.length + 1)).map (fun i => (([] : List Char), i)) ∧
    (split_sequence s 0).length = s.length + 1 ∧
    parseUsize ("0".toList) = some 0 := by
  have heq : split_sequence s 0 =
      (List.range (s.length + 1)).map (fun i => (([] : List Char), i)) := by
    rw [split_sequence_eq]
    simp
  refine ⟨heq, by rw [heq]; simp, by decide⟩

/-- Rust `str::is_char_boundary` on the byte list `s`: true at 0 and at the
length, and otherwise iff the byte at `i` is not a UTF-8 continuation byte
(`b as i8 >= -0x40`, i.e. `b < 0x80 ∨ 0xC0 ≤ b`). -/
def is_char_boundary (s : List Nat) (i : Nat) : Bool :=
  if i = 0 then true
  else if i = s.length then true
  else
    match s.get? i with
    | some b => decide (b < 128) || decide (192 ≤ b)
    | none => false

/-- Byte-accurate `while` loop of `split_sequence`: in Rust, `seq[i..i + k]`
slices the underlying bytes and panics when either end of the range is not
a character boundary; `none` models that panic. -/
def splitGoB : Nat → List Nat → Nat → Nat → Option (List (List Nat × Nat))
  | 0, _, _, _ => some []
  | fuel + 1, seq, k, i =>
    if i + k ≤ seq.length then
      if is_char_boundary seq i && is_char_boundary seq (i + k) then
        (splitGoB fuel seq k (i + 1)).map
          (fun rest => ((seq.drop i).take k, i) :: rest)
      else
        none
    else
      some []

/-- Model of `split_sequence` over the UTF-8 bytes of the input, with slice-panic
modelled as `none` (main.rs, lines 70-78). -/
def split_sequence_bytes (seq : List Nat) (k : Nat) : Option (List (List Nat × Nat)) :=
  splitGoB (seq.length + 1) seq k 0

/-- On all-ASCII byte lists every position is a character boundary, so the
byte-level loop never fails and agrees with the abstract loop. -/
theorem splitGoB_ascii (seq : List Nat) (k : Nat) (hA : ∀ b ∈ seq, b < 128) :
    ∀ fuel i, splitGoB fuel seq k i = some (splitGo fuel seq k i) := by
  have hb : ∀ j, j ≤ seq.length → is_char_boundary seq j = true := by
    intro j hjle
    unfold is_char_boundary
    by_cases hj0 : j = 0
    · simp [hj0]
    · by_cases hjl : j = seq.length
      · simp [hj0, hjl]
      · simp only [hj0, hjl, if_false]
        cases hg : seq.get? j with
        | none =>
          have := List.get?_eq_none.mp hg
          omega
        | some b =>
          have hmem : b ∈ seq := List.get?_mem hg
          have := hA b hmem
          simp [this]
  intro fuel
  induction fuel with
  | zero => intro i; rfl
  | succ fuel ih =>
    intro i
    by_cases h : i + k ≤ seq.length
    · rw [splitGoB, splitGo]
      simp [h, hb i (by omega), hb (i + k) h, ih (i + 1)]
    · rw [splitGoB, splitGo]
      simp [h]

/-- Every pair produced by `split_sequence` carries a window of exactly
`k` elements. -/
theorem split_sequence_window_length {α : Type} (seq : List α) (k : Nat) :
    ∀ p ∈ split_sequence seq k, p.1.length = k := by
  intro p hp
  rw [split_sequence_eq] at hp
  simp only [List.mem_map, List.mem_range] at hp
  obtain ⟨j, hj, rfl⟩ := hp
  simp only [List.length_take, List.length_drop]
  omega

/-- C10: `split_sequence` measures and slices by bytes: on all-ASCII
input the byte-level run never fails, agrees with the abstract result, and
every returned substring has exactly `k` characters; on the non-ASCII input
`"é"` (bytes `[0xC3, 0xA9]`) with `k = 1` the window boundary at byte 1
falls inside the two-byte character and the slice fails. -/
theorem split_sequence_byte_semantics (s : List Nat) (k : Nat)
    (hA : ∀ b ∈ s, b < 128) :
    split_sequence_bytes s k = some (split_sequence s k) ∧
    (∀ p ∈ split_sequence s k, p.1.length = k) ∧
    split_sequence_bytes [195, 169] 1 = none := by
  refine ⟨splitGoB_ascii s k hA (s.length + 1) 0, split_sequence_window_length s k, ?_⟩
  decide

/-- Witness for C10: the ASCII bytes of `"MKV"` with `k = 2`. -/
theorem split_sequence_byte_semantics_witness :
    split_sequence_bytes [77, 75, 86] 2 = some (split_sequence [77, 75, 86] 2) ∧
    (∀ p ∈ split_sequence ([77, 75, 86] : List Nat) 2, p.1.length = 2) ∧
    split_sequence_bytes [195, 169] 1 = none :=
  split_sequence_byte_semantics [77, 75, 86] 2 (by decide)

/-- Capture of `[^|]*` up to the closing `|`, after an opening `|` was
consumed: the characters before the next `|`, or no match if none follows. -/
def pipeCapture : List Char → Option (List Char)
  | [] => none
  | c :: rest => if c = '|' then some [] else (pipeCapture rest).map (c :: ·)

/-- Lazy `(.+?)` up to the literal `lit`: the shortest non-empty run of
non-newline characters after which `lit` starts. -/
def lazyDotLit (lit : List Char) : List Char → Option (List Char)
  | [] => none
  | a :: rest =>
    if isDotC a then
      if lit.isPrefixOf rest then some [a]
      else (lazyDotLit lit rest).map (a :: ·)
    else none

/-- Lazy `(.+?)\s`: the shortest non-empty run of non-newline characters
followed by a white-space character. -/
def lazyDotWs : List Char → Option (List Char)
  | [] => none
  | a :: rest =>
    if isDotC a then
      match rest with
      | [] => none
      | b :: _ =>
        if isWsC b then some [a] else (lazyDotWs rest).map (a :: ·)
    else none

/-- Lazy `(\d+?)\s`: a run of Unicode decimal digits (`\p{Nd}`) followed
by a white-space character; a non-digit, non-space successor kills the
match (lazy expansion only ever adds digits). -/
def lazyDigitsWs : List Char → Option (List Char)
  | [] => none
  | a :: rest =>
    if isNdC a then
      match rest with
      | [] => none
      | b :: _ =>
        if isWsC b then some [a]
        else if isNdC b then (lazyDigitsWs rest).map (a :: ·)
        else none
    else none

/-- Lazy `(\d+?)(\s|$)`: like `lazyDigitsWs` but end of input also
terminates the run. -/
def lazyDigitsWsEnd : List Char → Option (List Char)
  | [] => none
  | a :: rest =>
    if isNdC a then
      match rest with
      | [] => some [a]
      | b :: _ =>
        if isWsC b then some [a]
        else if isNdC b then (lazyDigitsWsEnd rest).map (a :: ·)
        else none
    else none

/-- Anchored attempt of a pattern that starts with the literal `lit` and
continues with `cont` on the remaining input. -/
def tryLitAt (lit : List Char) (cont : List Char → Option (List Char))
    (s : List Char) : Option (List Char) :=
  if lit.isPrefixOf s then cont (s.drop lit.length) else none

/-- Anchored attempt of `\|([^|]*)\|`. -/
def tryIdAt : List Char → Option (List Char)
  | [] => none
  | c :: rest => if c = '|' then pipeCapture rest else none

/-- Anchored attempt of `\s(.+?)OS`. -/
def tryNameAt : List Char → Option (List Char)
  | [] => none
  | c :: rest => if isWsC c then lazyDotLit ['O', 'S'] rest else none

/-- Anchored attempt of `OS=(.+?)OX`. -/
def trySpeciesAt : List Char → Option (List Char) :=
  tryLitAt ['O', 'S', '='] (lazyDotLit ['O', 'X'])

/-- Anchored attempt of `OX=(\d+?)\s`. -/
def tryTaxonAt : List Char → Option (List Char) :=
  tryLitAt ['O', 'X', '='] lazyDigitsWs

/-- Anchored attempt of `GN=(.+?)\s`. -/
def tryGeneAt : List Char → Option (List Char) :=
  tryLitAt ['G', 'N', '='] lazyDotWs

/-- Anchored attempt of `PE=(\d+?)\s`. -/
def tryPeAt : List Char → Option (List Char) :=
  tryLitAt ['P', 'E', '='] lazyDigitsWs

/-- Anchored attempt of `SV=(\d+?)(\s|$)`. -/
def trySvAt : List Char → Option (List Char) :=
  tryLitAt ['S', 'V', '='] lazyDigitsWsEnd

/-- Leftmost-first search: try the anchored pattern at every start
position, left to right, and return the first capture. -/
def scanWith (f : List Char → Option (List Char)) : List Char → Option (List Char)
  | [] => none
  | c :: rest =>
    match f (c :: rest) with
    | some v => some v
    | none => scanWith f rest

/-- Model of `Regex::captures` of `\|([^|]*)\|` (main.rs, line 17), capture group 1. -/
def matchProteinId (h : List Char) : Option (List Char) := scanWith tryIdAt h

/-- Model of `Regex::captures` of `\s(.+?)OS` (main.rs, line 18), capture group 1. -/
def matchProteinName (h : List Char) : Option (List Char) := scanWith tryNameAt h

/-- Model of `Regex::captures` of `OS=(.+?)OX` (main.rs, line 19), capture group 1. -/
def matchSpecies (h : List Char) : Option (List Char) := scanWith trySpeciesAt h

/-- Model of `Regex::captures` of `OX=(\d+?)\s` (main.rs, line 20), capture group 1. -/
def matchTaxonId (h : List Char) : Option (List Char) := scanWith tryTaxonAt h

/-- Model of `Regex::captures` of `GN=(.+?)\s` (main.rs, line 21), capture group 1. -/
def matchGene (h : List Char) : Option (List Char) := scanWith tryGeneAt h

/-- Model of `Regex::captures` of `PE=(\d+?)\s` (main.rs, line 22), capture group 1. -/
def matchPeLevel (h : List Char) : Option (List Char) := scanWith tryPeAt h

/-- Model of `Regex::captures` of `SV=(\d+?)(\s|$)` (main.rs, line 23), capture
group 1. -/
def matchSeqVersion (h : List Char) : Option (List Char) := scanWith trySvAt h

/-- One FASTA record as delivered by the external reader: identifier
token, optional description (absent modelled as empty, as by
`record.desc().unwrap_or("")`), and residue string. -/
structure FastaRecord where
  id : List Char
  desc : List Char
  seq : List Char
deriving Inhabited

/-- The metadata tuple built in `get_data_from_proteome`
(main.rs, lines 52-61): six strings and two parsed integers. -/
structure MetadataRow where
  protein_number : List Char
  protein_id : List Char
  protein_name : List Char
  species : List Char
  taxon_id : List Char
  gene : List Char
  pe_level : Nat
  sequence_version : Nat
deriving DecidableEq, Inhabited

/-- Model of `format!("{} {}", record.id(), record.desc().unwrap_or(""))`
(main.rs, line 32). -/
def mkHeader (id desc : List Char) : List Char :=
  id ++ ' ' :: desc

/-- The `metadata_entry` vector (main.rs, lines 35-50): the protein number
as a string, then, for each regex in order, capture group 1 if the regex
matches and otherwise the per-key default — the record identifier for
`protein_id`, `"0"` for `pe_level` and `sequence_version`, `""` for the
rest. -/
def metadataEntries (i : Nat) (recId : List Char) (header : List Char) :
    List (List Char) :=
  [natToString i,
   (matchProteinId header).getD recId,
   (matchProteinName header).getD [],
   (matchSpecies header).getD [],
   (matchTaxonId header).getD [],
   (matchGene header).getD [],
   (matchPeLevel header).getD ['0'],
   (matchSeqVersion header).getD ['0']]

/-- The tuple construction of main.rs, lines 52-61: entries 6 and 7 go
through `parse::<usize>().unwrap()`, whose panic on overflow is modelled
as `none`. -/
def mkMetadata (es : List (List Char)) : Option MetadataRow :=
  match es with
  | [e0, e1, e2, e3, e4, e5, e6, e7] =>
    match parseUsize e6, parseUsize e7 with
    | some pe, some sv => some ⟨e0, e1, e2, e3, e4, e5, pe, sv⟩
    | _, _ => none
  | _ => none

/-- Metadata extraction for one record with protein number `i`
(the body of the `for result in reader.records()` loop,
main.rs, lines 26-63). -/
def processRecord (i : Nat) (r : FastaRecord) : Option MetadataRow :=
  mkMetadata (metadataEntries i r.id (mkHeader r.id r.desc))

/-- The record loop of `get_data_from_proteome` starting at protein number
`i`: collects `(sequence, protein_number)` pairs and metadata rows; `none`
models the panic of an `unwrap` inside the loop. -/
def getDataGo : List FastaRecord → Nat → Option (List (List Char × Nat) × List MetadataRow)
  | [], _ => some ([], [])
  | r :: rs, i =>
    match processRecord i r, getDataGo rs (i + 1) with
    | some m, some (ss, md) => some ((r.seq, i) :: ss, m :: md)
    | _, _ => none

/-- Model of `get_data_from_proteome` (main.rs, lines 8-67): the protein counter
starts at 1. -/
def get_data_from_proteome (rs : List FastaRecord) :
    Option (List (List Char × Nat) × List MetadataRow) :=
  getDataGo rs 1

/-- The full stream of k-mer rows written by the loop of `main`
(main.rs, lines 194-197): for each `(sequence, protein_number)` pair, the
rows of `insert_kmers` in order. -/
def kmer_rows (seqs : List (List Char × Nat)) (k : Nat) : List (List Char × Nat) :=
  (seqs.map (fun s => insert_kmers_rows (split_sequence s.1 k) s.2)).flatten

/-- Model of the `k`-argument handling in `main` (main.rs, lines 177-182): a value
that fails `parse::<usize>` terminates the process with exit code 1 before
`get_data_from_proteome` or `connect` runs; otherwise the run proceeds
with the parsed `k`. -/
def runMain (kStr : List Char) : Except Nat Nat :=
  match parseUsize kStr with
  | none => Except.error 1
  | some k => Except.ok k

/-- Characterization of `processRecord` in terms of the seven matchers: the entry list always
has exactly eight elements, so only the two `parse::<usize>` calls decide
between a row and a panic. -/
theorem processRecord_eq (i : Nat) (r : FastaRecord) :
    processRecord i r =
      match parseUsize ((matchPeLevel (mkHeader r.id r.desc)).getD ['0']),
            parseUsize ((matchSeqVersion (mkHeader r.id r.desc)).getD ['0']) with
      | some pe, some sv =>
        some ⟨natToString i,
              (matchProteinId (mkHeader r.id r.desc)).getD r.id,
              (matchProteinName (mkHeader r.id r.desc)).getD [],
              (matchSpecies (mkHeader r.id r.desc)).getD [],
              (matchTaxonId (mkHeader r.id r.desc)).getD [],
              (matchGene (mkHeader r.id r.desc)).getD [],
              pe, sv⟩
      | _, _ => none := rfl

/-- C4 (amended): Header extraction is per-field and independent: for
every record, each of the seven fields is the capture of its own regex when
that regex matches and the documented default otherwise (the bare record
identifier for `protein_id`, `"0"` — hence 0 — for `pe_level` and
`sequence_version`, `""` for the rest), and the metadata row is produced —
provided the `pe_level` and `sequence_version` entries survive
`parse::<usize>`, i.e. each captured value is an in-range ASCII digit
string.  (The unamended "never fails" is refuted by
`extraction_overflow_panics` below: an overflowing `PE=`/`SV=` value makes
the `unwrap` panic; a non-ASCII Unicode digit captured by `\d` panics the
same way, see `unicode_digit_semantics`.) -/
theorem extraction_defaults (i : Nat) (id desc sq : List Char) (pe sv : Nat)
    (hpe : parseUsize ((matchPeLevel (mkHeader id desc)).getD ['0']) = some pe)
    (hsv : parseUsize ((matchSeqVersion (mkHeader id desc)).getD ['0']) = some sv) :
    processRecord i ⟨id, desc, sq⟩ =
      some ⟨natToString i,
            (matchProteinId (mkHeader id desc)).getD id,
            (matchProteinName (mkHeader id desc)).getD [],
            (matchSpecies (mkHeader id desc)).getD [],
            (matchTaxonId (mkHeader id desc)).getD [],
            (matchGene (mkHeader id desc)).getD [],
            pe, sv⟩ := by
  simp [processRecord, mkMetadata, metadataEntries, hpe, hsv]

/-- Witness for C4: a record whose header has none of the seven markers —
every field degrades to its default and the row is still produced. -/
theorem extraction_defaults_witness :
    processRecord 2 ⟨"ABC1".toList, [], []⟩ =
      some ⟨natToString 2,
            (matchProteinId (mkHeader ("ABC1".toList) [])).getD ("ABC1".toList),
            (matchProteinName (mkHeader ("ABC1".toList) [])).getD [],
            (matchSpecies (mkHeader ("ABC1".toList) [])).getD [],
            (matchTaxonId (mkHeader ("ABC1".toList) [])).getD [],
            (matchGene (mkHeader ("ABC1".toList) [])).getD [],
            0, 0⟩ :=
  extraction_defaults 2 ("ABC1".toList) [] [] 0 0 (by decide) (by decide)

/-- Counterexample to C4 as stated ("extraction … never fails"): a header
whose `PE=` value is `2 ^ 64` (out of `usize` range) is captured by the
regex but `parse::<usize>().unwrap()` panics, so no metadata row is
produced. -/
theorem extraction_overflow_panics :
    processRecord 1
      ⟨"P".toList, "PE=18446744073709551616 SV=1".toList, "MKV".toList⟩ = none := by
  decide

/-- The FASTA record of end-to-end scenario 1
(header `>sp|P1|NAME_HUMAN Some Name OS=Homo sapiens OX=9606 GN=ABC PE=1 SV=2`,
residues `MKV`). -/
def scenarioRecord : FastaRecord :=
  ⟨"sp|P1|NAME_HUMAN".toList,
   "Some Name OS=Homo sapiens OX=9606 GN=ABC PE=1 SV=2".toList,
   "MKV".toList⟩

/-- Counterexample to C5 as stated: the species regex `OS=(.+?)OX` captures
everything strictly between `OS=` and the literal `OX`, including the
separating blank, so the stored species is `"Homo sapiens "` (trailing
space), not `"Homo sapiens"`. -/
theorem scenario1_species_trailing_space :
    (processRecord 1 scenarioRecord).map MetadataRow.species =
      some ("Homo sapiens ".toList) ∧
    ("Homo sapiens ".toList : List Char) ≠ "Homo sapiens".toList := by
  decide

/-- C5 (amended): End-to-end scenario 1 with the species value the code
actually produces: the single record yields the metadata row
`(protein_number = "1", protein_id = "P1", protein_name = "Some Name ",
species = "Homo sapiens " (trailing space), taxon_id = "9606",
gene = "ABC", pe_level = 1, sequence_version = 2)`, the sequence list
`[("MKV", 1)]`, and with `k = 2` exactly the k-mer rows
`("MK", 1000000), ("KV", 1000001)` in that order. -/
theorem scenario1_end_to_end :
    get_data_from_proteome [scenarioRecord] =
      some ([("MKV".toList, 1)],
        [⟨"1".toList, "P1".toList, "Some Name ".toList, "Homo sapiens ".toList,
          "9606".toList, "ABC".toList, 1, 2⟩]) ∧
    kmer_rows [("MKV".toList, 1)] 2 =
      [("MK".toList, 1000000), ("KV".toList, 1000001)] := by
  decide

/-- C6 (amended): a value of `k` that fails `parse::<usize>` (non-numeric,
negative, or out of range) terminates the process with exit code 1 before
`get_data_from_proteome` or `connect` runs; but `"0"` parses successfully,
so `k = 0` is accepted rather than rejected as non-positive. -/
theorem k_arg_parse_failure (s : List Char) (h : parseUsize s = none) :
    runMain s = Except.error 1 ∧ runMain ("0".toList) = Except.ok 0 := by
  constructor
  · unfold runMain
    rw [h]
  · rfl

/-- Witness for C6: the non-numeric value `"abc"`. -/
theorem k_arg_parse_failure_witness :
    runMain ("abc".toList) = Except.error 1 ∧ runMain ("0".toList) = Except.ok 0 :=
  k_arg_parse_failure ("abc".toList) (by decide)

/-- Counterexample to C6 as stated: `k = 0` is non-positive, yet
`"0".parse::<usize>()` succeeds and the program proceeds to its I/O phase
instead of terminating with a non-zero exit. -/
theorem k_zero_accepted :
    parseUsize ("0".toList) = some 0 ∧ runMain ("0".toList) = Except.ok 0 :=
  ⟨by decide, rfl⟩

/-- A produced metadata row always records the protein number it was built
with (entry 0 of `metadata_entry` is `i.to_string()`). -/
theorem processRecord_number (i : Nat) (r : FastaRecord) (m : MetadataRow)
    (h : processRecord i r = some m) : m.protein_number = natToString i := by
  rw [processRecord_eq] at h
  cases hpe : parseUsize ((matchPeLevel (mkHeader r.id r.desc)).getD ['0']) with
  | none =>
    rw [hpe] at h
    exact Option.noConfusion h
  | some pe =>
    rw [hpe] at h
    cases hsv : parseUsize ((matchSeqVersion (mkHeader r.id r.desc)).getD ['0']) with
    | none =>
      rw [hsv] at h
      exact Option.noConfusion h
    | some sv =>
      rw [hsv] at h
      injection h with h
      rw [← h]

/-- The record loop, started at any counter value `i`, yields one sequence
pair and one metadata row per record, in file order, with consecutive
protein numbers. -/
theorem getDataGo_spec :
    ∀ (rs : List FastaRecord) (i : Nat) (ss : List (List Char × Nat))
      (md : List MetadataRow), getDataGo rs i = some (ss, md) →
      md.length = rs.length ∧ ss.length = rs.length ∧
      ∀ j, j < rs.length →
        processRecord (i + j) (rs.getD j default) = some (md.getD j default) ∧
        ss.getD j ([], 0) = ((rs.getD j default).seq, i + j) := by
  intro rs
  induction rs with
  | nil =>
    intro i ss md h
    injection h with h
    injection h with h1 h2
    subst h1; subst h2
    exact ⟨rfl, rfl, fun j hj => absurd hj (by simp)⟩
  | cons r rs ih =>
    intro i ss md h
    unfold getDataGo at h
    cases hm : processRecord i r with
    | none => rw [hm] at h; exact absurd h (by simp)
    | some m =>
      rw [hm] at h
      cases hrest : getDataGo rs (i + 1) with
      | none => rw [hrest] at h; exact absurd h (by simp)
      | some p =>
        obtain ⟨ss1, md1⟩ := p
        rw [hrest] at h
        simp only at h
        injection h with h
        injection h with h1 h2
        subst h1; subst h2
        obtain ⟨hlen1, hlen2, hj⟩ := ih (i + 1) ss1 md1 hrest
        refine ⟨by simp [hlen1], by simp [hlen2], ?_⟩
        intro j hjlt
        cases j with
        | zero => simpa using hm
        | succ j =>
          have hlt : j < rs.length := by simpa using hjlt
          have := hj j hlt
          have harith : i + (j + 1) = i + 1 + j := by omega
          simpa [harith] using this

/-- C7 (amended): Whenever `get_data_from_proteome` completes (every
captured `PE=`/`SV=` value of every record parses as `usize`, i.e. is an
in-range ASCII digit string — and the defaults `"0"` always do), it yields exactly one
metadata row per input record, in file order, where row `j` is the
extraction of record `j` with protein number `1 + j` (so the ordinals are
`1, 2, 3, …`, positive, 1-based and unique), and one `(sequence, ordinal)`
pair per record with the same ordinals.  (The unamended claim quantifies
over every input file; `overflow_aborts_run` below shows a file on which
the run panics and produces no rows at all.) -/
theorem one_row_per_record (rs : List FastaRecord) (ss : List (List Char × Nat))
    (md : List MetadataRow) (h : get_data_from_proteome rs = some (ss, md)) :
    md.length = rs.length ∧ ss.length = rs.length ∧
    ∀ j, j < rs.length →
      processRecord (1 + j) (rs.getD j default) = some (md.getD j default) ∧
      (md.getD j default).protein_number = natToString (1 + j) ∧
      ss.getD j ([], 0) = ((rs.getD j default).seq, 1 + j) := by
  obtain ⟨h1, h2, h3⟩ := getDataGo_spec rs 1 ss md h
  refine ⟨h1, h2, fun j hj => ?_⟩
  obtain ⟨hp, hs⟩ := h3 j hj
  exact ⟨hp, processRecord_number (1 + j) (rs.getD j default) _ hp, hs⟩

/-- Witness for C7: a two-record file; the rows come out in file order
with protein numbers 1 and 2. -/
theorem one_row_per_record_witness :
    (([⟨"A".toList, [], "MK".toList⟩, ⟨"B".toList, [], "QR".toList⟩] :
        List FastaRecord).length = 2) ∧
    ([("MK".toList, 1), ("QR".toList, 2)] : List (List Char × Nat)).length = 2 ∧
    ∀ j, j < ([⟨"A".toList, [], "MK".toList⟩, ⟨"B".toList, [], "QR".toList⟩] :
        List FastaRecord).length →
      processRecord (1 + j)
          (([⟨"A".toList, [], "MK".toList⟩, ⟨"B".toList, [], "QR".toList⟩] :
            List FastaRecord).getD j default) =
        some (([⟨"1".toList, "A".toList, [], [], [], [], 0, 0⟩,
                ⟨"2".toList, "B".toList, [], [], [], [], 0, 0⟩] :
               List MetadataRow).getD j default) := by
  have h := one_row_per_record
    [⟨"A".toList, [], "MK".toList⟩, ⟨"B".toList, [], "QR".toList⟩]
    [("MK".toList, 1), ("QR".toList, 2)]
    [⟨"1".toList, "A".toList, [], [], [], [], 0, 0⟩,
     ⟨"2".toList, "B".toList, [], [], [], [], 0, 0⟩]
    (by decide)
  exact ⟨h.1, h.2.1, fun j hj => (h.2.2 j hj).1⟩

/-- Counterexample to C7 as stated: on a one-record file whose header
carries an out-of-range `PE=` value, the run panics inside the record loop
and produces no metadata rows at all (not one row per record). -/
theorem overflow_aborts_run :
    get_data_from_proteome
      [⟨"Q".toList, "PE=99999999999999999999 SV=1".toList, "MK".toList⟩] = none := by
  decide

/-- A successful leftmost scan means the anchored pattern succeeds on some
suffix. -/
theorem scanWith_some (f : List Char → Option (List Char)) :
    ∀ s v, scanWith f s = some v → ∃ u w, s = u ++ w ∧ f w = some v := by
  intro s
  induction s with
  | nil => intro v hv; exact Option.noConfusion hv
  | cons c rest ih =>
    intro v hv
    rw [scanWith] at hv
    cases hf : f (c :: rest) with
    | some w =>
      rw [hf] at hv
      injection hv with hv
      subst hv
      exact ⟨[], c :: rest, rfl, hf⟩
    | none =>
      rw [hf] at hv
      obtain ⟨u, w, hrest, hw⟩ := ih v hv
      exact ⟨c :: u, w, by rw [List.cons_append, ← hrest], hw⟩

/-- A successful `tryLitAt` strips exactly the literal. -/
theorem tryLitAt_some (lit : List Char) (cont : List Char → Option (List Char))
    (s v : List Char) (h : tryLitAt lit cont s = some v) :
    ∃ rest, s = lit ++ rest ∧ cont rest = some v := by
  unfold tryLitAt at h
  by_cases hp : lit.isPrefixOf s
  · rw [if_pos hp] at h
    obtain ⟨rest, hrest⟩ := List.isPrefixOf_iff_prefix.mp hp
    refine ⟨rest, hrest.symm, ?_⟩
    rw [← h]
    congr 1
    rw [← hrest, List.drop_left]
  · rw [if_neg hp] at h
    exact Option.noConfusion h

/-- A successful `(.+?)\s` tail contains a white-space character. -/
theorem lazyDotWs_hasWs : ∀ t v, lazyDotWs t = some v → ∃ c ∈ t, isWsC c = true := by
  intro t
  induction t with
  | nil => intro v hv; exact Option.noConfusion hv
  | cons a rest ih =>
    intro v hv
    cases rest with
    | nil =>
      simp only [lazyDotWs] at hv
      by_cases hd : isDotC a
      · rw [if_pos hd] at hv
        exact Option.noConfusion hv
      · rw [if_neg hd] at hv
        exact Option.noConfusion hv
    | cons b rest2 =>
      simp only [lazyDotWs] at hv
      by_cases hd : isDotC a
      · rw [if_pos hd] at hv
        by_cases hw : isWsC b
        · exact ⟨b, List.mem_cons_of_mem a (List.mem_cons_self b rest2), hw⟩
        · rw [if_neg hw] at hv
          obtain ⟨v2, hv2, _⟩ := Option.map_eq_some'.mp hv
          obtain ⟨c, hc, hcw⟩ := ih v2 hv2
          exact ⟨c, List.mem_cons_of_mem a hc, hcw⟩
      · rw [if_neg hd] at hv
        exact Option.noConfusion hv

/-- A successful `(\d+?)\s` tail contains a white-space character. -/
theorem lazyDigitsWs_hasWs : ∀ t v, lazyDigitsWs t = some v → ∃ c ∈ t, isWsC c = true := by
  intro t
  induction t with
  | nil => intro v hv; exact Option.noConfusion hv
  | cons a rest ih =>
    intro v hv
    cases rest with
    | nil =>
      simp only [lazyDigitsWs] at hv
      by_cases hd : isNdC a
      · rw [if_pos hd] at hv
        exact Option.noConfusion hv
      · rw [if_neg hd] at hv
        exact Option.noConfusion hv
    | cons b rest2 =>
      simp only [lazyDigitsWs] at hv
      by_cases hd : isNdC a
      · rw [if_pos hd] at hv
        by_cases hw : isWsC b
        · exact ⟨b, List.mem_cons_of_mem a (List.mem_cons_self b rest2), hw⟩
        · rw [if_neg hw] at hv
          by_cases hd2 : isNdC b
          · rw [if_pos hd2] at hv
            obtain ⟨v2, hv2, _⟩ := Option.map_eq_some'.mp hv
            obtain ⟨c, hc, hcw⟩ := ih v2 hv2
            exact ⟨c, List.mem_cons_of_mem a hc, hcw⟩
          · rw [if_neg hd2] at hv
            exact Option.noConfusion hv
      · rw [if_neg hd] at hv
        exact Option.noConfusion hv

/-- Decidable side condition: after every occurrence of the marker `lit`
in `hdr`, the remaining characters contain no white space (in particular
the value of the marker runs to the end of the line). -/
def noWsAfterMarker (lit hdr : List Char) : Bool :=
  (List.range (hdr.length + 1)).all fun n =>
    !(lit.isPrefixOf (hdr.drop n)) ||
      (hdr.drop (n + lit.length)).all (fun c => !(isWsC c))

/-- Unpacking `noWsAfterMarker`: any decomposition around the marker has a
white-space-free remainder. -/
theorem noWsAfterMarker_spec (lit hdr : List Char)
    (hno : noWsAfterMarker lit hdr = true) :
    ∀ u w, hdr = u ++ (lit ++ w) → ∀ c ∈ w, isWsC c = false := by
  intro u w heq c hc
  have hlen : u.length ≤ hdr.length := by
    rw [heq]
    simp [List.length_append]
  have hall := List.all_eq_true.mp hno u.length (by rw [List.mem_range]; omega)
  have hdrop : hdr.drop u.length = lit ++ w := by rw [heq, List.drop_left]
  have hpre : lit.isPrefixOf (hdr.drop u.length) = true := by
    rw [hdrop]
    exact List.isPrefixOf_iff_prefix.mpr ⟨w, rfl⟩
  have hdrop2 : hdr.drop (u.length + lit.length) = w := by
    have hassoc : u ++ (lit ++ w) = (u ++ lit) ++ w := (List.append_assoc u lit w).symm
    have hlen2 : u.length + lit.length = (u ++ lit).length := (List.length_append u lit).symm
    rw [heq, hassoc, hlen2, List.drop_left]
  rw [hpre, hdrop2] at hall
  simp only [Bool.not_true, Bool.false_or] at hall
  have := List.all_eq_true.mp hall c hc
  simp at this
  exact this

/-- Generic negative direction for the three `…\s`-terminated regexes: if
no white space follows any occurrence of the marker, the whole pattern has
no match anywhere. -/
theorem scan_marker_none (lit : List Char) (cont : List Char → Option (List Char))
    (hcont : ∀ t v, cont t = some v → ∃ c ∈ t, isWsC c = true)
    (hdr : List Char) (hno : noWsAfterMarker lit hdr = true) :
    scanWith (tryLitAt lit cont) hdr = none := by
  cases hm : scanWith (tryLitAt lit cont) hdr with
  | none => rfl
  | some v =>
    exfalso
    obtain ⟨u, w, hsplit, hf⟩ := scanWith_some _ hdr v hm
    obtain ⟨rest, hw, hc⟩ := tryLitAt_some lit cont w v hf
    obtain ⟨c, hcm, hcw⟩ := hcont rest v hc
    have hws := noWsAfterMarker_spec lit hdr hno u rest
      (by rw [hsplit, hw]) c hcm
    rw [hws] at hcw
    exact Bool.noConfusion hcw

/-- A decimal digit is never white space. -/
theorem digit_not_ws (c : Char) (h : isDigitC c = true) : isWsC c = false := by
  simp only [isDigitC, Bool.and_eq_true, decide_eq_true_eq] at h
  rw [Bool.eq_false_iff]
  intro hws
  simp only [isWsC, Bool.or_eq_true, Bool.and_eq_true, decide_eq_true_eq] at hws
  omega

/-- ASCII digits belong to the Unicode `Nd` class (its first run). -/
theorem ascii_digit_isNd (c : Char) (h : isDigitC c = true) : isNdC c = true := by
  simp only [isDigitC, Bool.and_eq_true, decide_eq_true_eq] at h
  rw [isNdC, List.any_eq_true]
  refine ⟨48, by decide, ?_⟩
  simp only [Bool.and_eq_true, decide_eq_true_eq]
  omega

/-- Lemma: `(\d+?)(\s|$)` consumes a whole digit string that runs to the end of
the input. -/
theorem lazyDigitsWsEnd_digits :
    ∀ d, d ≠ [] → d.all isDigitC = true → lazyDigitsWsEnd d = some d := by
  intro d
  induction d with
  | nil => intro hne _; exact absurd rfl hne
  | cons a rest ih =>
    intro _ hdig
    have hda : isDigitC a = true := by
      have := List.all_eq_true.mp hdig a (List.mem_cons_self a rest)
      exact this
    cases rest with
    | nil => simp [lazyDigitsWsEnd, ascii_digit_isNd a hda]
    | cons b rest2 =>
      have hdb : isDigitC b = true := by
        exact List.all_eq_true.mp hdig b
          (List.mem_cons_of_mem a (List.mem_cons_self b rest2))
      have hrec : lazyDigitsWsEnd (b :: rest2) = some (b :: rest2) := by
        refine ih (by simp) ?_
        rw [List.all_eq_true]
        intro c hc
        exact List.all_eq_true.mp hdig c (List.mem_cons_of_mem a hc)
      have hstep : lazyDigitsWsEnd (a :: b :: rest2) =
          if isNdC a = true then
            (if isWsC b = true then some [a]
             else if isNdC b = true then
               (lazyDigitsWsEnd (b :: rest2)).map (fun x => a :: x)
             else none)
          else none := rfl
      rw [hstep, if_pos (ascii_digit_isNd a hda),
        if_neg (by rw [digit_not_ws b hdb]; exact Bool.false_ne_true),
        if_pos (ascii_digit_isNd b hdb), hrec]
      rfl

/-- If the anchored pattern fails on every suffix opened inside `p`, the
scan of `p ++ t` continues into `t`. -/
theorem scanWith_append_none (f : List Char → Option (List Char)) :
    ∀ p t, (∀ u w, p = u ++ w → w ≠ [] → f (w ++ t) = none) →
      scanWith f (p ++ t) = scanWith f t := by
  intro p
  induction p with
  | nil => intro t _; rfl
  | cons a p2 ih =>
    intro t hfail
    have h1 : f ((a :: p2) ++ t) = none := hfail [] (a :: p2) rfl (by simp)
    rw [List.cons_append] at h1 ⊢
    rw [scanWith, h1]
    exact ih t (fun u w hu hw => hfail (a :: u) w (by rw [hu, List.cons_append]) hw)

/-- Decidable side condition for the positive SV case: in
`p ++ "SV=" ++ d` the marker `SV=` occurs only at position `length p`. -/
def svOnlyAtEnd (p d : List Char) : Bool :=
  (List.range ((p ++ ['S', 'V', '='] ++ d).length + 1)).all fun n =>
    !(['S', 'V', '='].isPrefixOf ((p ++ ['S', 'V', '='] ++ d).drop n)) ||
      decide (n = p.length)

/-- Positive SV direction: a non-empty all-digit value directly after the
only `SV=` marker and running to the end of the line is captured — end of
input is an accepted terminator for this regex. -/
theorem sv_end_matches (p d : List Char) (hne : d ≠ [])
    (hdig : d.all isDigitC = true) (honly : svOnlyAtEnd p d = true) :
    matchSeqVersion (p ++ ['S', 'V', '='] ++ d) = some d := by
  unfold matchSeqVersion
  rw [List.append_assoc]
  have hskip : scanWith trySvAt (p ++ (['S', 'V', '='] ++ d)) =
      scanWith trySvAt (['S', 'V', '='] ++ d) := by
    refine scanWith_append_none trySvAt p (['S', 'V', '='] ++ d) ?_
    intro u w hu hw
    cases hm : trySvAt (w ++ (['S', 'V', '='] ++ d)) with
    | none => rfl
    | some v =>
      exfalso
      obtain ⟨rest, hsplit, _⟩ := tryLitAt_some _ _ _ _ hm
      have hdropu : (p ++ ['S', 'V', '='] ++ d).drop u.length =
          w ++ (['S', 'V', '='] ++ d) := by
        rw [List.append_assoc, hu, List.append_assoc, List.drop_left]
      have hpre : (['S', 'V', '='] : List Char).isPrefixOf
          ((p ++ ['S', 'V', '='] ++ d).drop u.length) = true := by
        rw [hdropu, hsplit]
        exact List.isPrefixOf_iff_prefix.mpr ⟨rest, rfl⟩
      have hmem : u.length ∈ List.range ((p ++ ['S', 'V', '='] ++ d).length + 1) := by
        rw [List.mem_range]
        have : u.length ≤ p.length := by
          rw [hu]
          simp
        simp only [List.length_append]
        omega
      have hall := List.all_eq_true.mp honly u.length hmem
      rw [hpre] at hall
      simp only [Bool.not_true, Bool.false_or, decide_eq_true_eq] at hall
      have : p.length = u.length + w.length := by rw [hu]; simp
      cases w with
      | nil => exact hw rfl
      | cons x xs => simp at this; omega
  rw [hskip]
  have hhead : trySvAt (['S', 'V', '='] ++ d) = some d := by
    unfold trySvAt tryLitAt
    rw [if_pos (List.isPrefixOf_iff_prefix.mpr ⟨d, rfl⟩)]
    rw [List.drop_left]
    exact lazyDigitsWsEnd_digits d hne hdig
  simp only [List.cons_append, List.nil_append] at hhead ⊢
  rw [scanWith, hhead]

/-- C8: The `GN=`, `OX=` and `PE=` matchers all require a white-space
character after the value, so a header in which the value of such a marker runs
to the end of the line (no white space anywhere after the marker) yields no
match and hence the absent-value default of the field (`""` for gene and
taxon_id, the entry `"0"` — parsed to 0 — for pe_level); only the `SV=`
matcher also accepts end of line as a terminator and still captures its
value there. -/
theorem marker_requires_trailing_space
    (h₁ h₂ h₃ p d : List Char)
    (hGN : noWsAfterMarker ['G', 'N', '='] h₁ = true)
    (hOX : noWsAfterMarker ['O', 'X', '='] h₂ = true)
    (hPE : noWsAfterMarker ['P', 'E', '='] h₃ = true)
    (hne : d ≠ []) (hdig : d.all isDigitC = true)
    (honly : svOnlyAtEnd p d = true) :
    matchGene h₁ = none ∧ (matchGene h₁).getD [] = [] ∧
    matchTaxonId h₂ = none ∧ (matchTaxonId h₂).getD [] = [] ∧
    matchPeLevel h₃ = none ∧ (matchPeLevel h₃).getD ['0'] = ['0'] ∧
    matchSeqVersion (p ++ ['S', 'V', '='] ++ d) = some d := by
  have hg : matchGene h₁ = none := scan_marker_none _ _ lazyDotWs_hasWs h₁ hGN
  have ht : matchTaxonId h₂ = none := scan_marker_none _ _ lazyDigitsWs_hasWs h₂ hOX
  have hpl : matchPeLevel h₃ = none := scan_marker_none _ _ lazyDigitsWs_hasWs h₃ hPE
  exact ⟨hg, by rw [hg]; rfl, ht, by rw [ht]; rfl, hpl, by rw [hpl]; rfl,
    sv_end_matches p d hne hdig honly⟩

/-- Witness for C8: `GN=AB`, `OX=9` and `PE=1` at end of line all miss;
`SV=25` at end of line is captured. -/
theorem marker_requires_trailing_space_witness :
    matchGene ("a GN=AB".toList) = none ∧
    (matchGene ("a GN=AB".toList)).getD [] = [] ∧
    matchTaxonId ("b OX=9".toList) = none ∧
    (matchTaxonId ("b OX=9".toList)).getD [] = [] ∧
    matchPeLevel ("c PE=1".toList) = none ∧
    (matchPeLevel ("c PE=1".toList)).getD ['0'] = ['0'] ∧
    matchSeqVersion ("x ".toList ++ ['S', 'V', '='] ++ "25".toList) =
      some ("25".toList) :=
  marker_requires_trailing_space ("a GN=AB".toList) ("b OX=9".toList)
    ("c PE=1".toList) ("x ".toList) ("25".toList)
    (by decide) (by decide) (by decide) (by decide) (by decide) (by decide)

/-- Fidelity of the Unicode-aware `\d` model: on the header
`"P PE=٣ SV=1"` (U+0663, ARABIC-INDIC DIGIT THREE, category `Nd`) the
`PE=` regex does capture `"٣"`, `parse::<usize>` rejects it (Rust integer
parsing is ASCII-only), and extraction therefore fails — exactly the
`unwrap` panic of the program; and on `"b OX=٣ "` the taxon regex captures
and stores `"٣"` rather than falling back to the default. -/
theorem unicode_digit_semantics :
    matchPeLevel ("P PE=٣ SV=1".toList) = some ['٣'] ∧
    parseUsize ['٣'] = none ∧
    processRecord 1 ⟨"P".toList, "PE=٣ SV=1".toList, "MKV".toList⟩ = none ∧
    matchTaxonId ("b OX=٣ ".toList) = some ['٣'] := by
  refine ⟨by decide, by decide, by decide, by decide⟩
